import Mathlib

/-!
Verification of `split.h` (namespace `org::ppires`): Perl-like `split` and
`join` over strings.  Strings are modelled as `List Char`; the three `split`
overloads (single-character separator, literal string separator, pattern
separator) and `basic_join` are embedded as executable functions below, and
the behavioural claims about them are proved afterwards.
-/

namespace SplitH

/-- Strings (`std::basic_string_view` contents) are modelled as lists of
characters. -/
abbrev Str := List Char

/-- The literal `sep` occurs in `s` at index `i`: the occurrence fits
(`i + sep.length ≤ s.length`) and the characters match.  This is the
occurrence notion of `std::basic_string_view::find`. -/
def matchesAt (s sep : Str) (i : Nat) : Bool :=
  decide (i + sep.length ≤ s.length) && decide ((s.drop i).take sep.length = sep)

/-- Model of `str.find(sep, pos)` for a string separator: the smallest
`i ≥ pos` at which `sep` occurs in `s` (`i = s.length` included, where only
the empty separator can occur); `none` stands for `str.npos`. -/
def findSub (s sep : Str) (pos : Nat) : Option Nat :=
  (List.range (s.length + 1)).find? (fun i => decide (pos ≤ i) && matchesAt s sep i)

/-- Model of `str.find(sep, pos)` for a character separator: the smallest
`i ≥ pos` with `s[i] = c`; `none` stands for `str.npos`. -/
def findChar (s : Str) (c : Char) (pos : Nat) : Option Nat :=
  (List.range s.length).find? (fun i => decide (pos ≤ i) && matchesAt s [c] i)

/-- Bounded-mode loop of the character-separator `split` overload
(src/split.h, lines 63-67).  `maxF1` is the C++ `max_fields` after the
`max_fields--` of line 62, `a` the scan position and `k` the current
`result.size()`; the function returns the fields the loop appends from this
state on.  `str.npos` is `Option.none`: the size_t wraparound of `a=b+1`
when `b==npos` is dead because the loop condition `b!=str.npos` fails.
`fuel` bounds the number of iterations; each iteration advances `a` by at
least one and stays `≤ s.length`, so the `s.length + 1` supplied by
`split_char` is never exhausted (`splitCharB_fuel`). -/
def splitCharB (s : Str) (c : Char) (maxF1 : Nat) : Nat → Nat → Nat → List Str
  | 0, _, _ => []
  | fuel + 1, a, k =>
    match (if maxF1 ≤ k then none else findChar s c a) with
    | none => [s.drop a]
    | some b =>
      if b + 1 ≤ s.length then
        (s.drop a).take (b - a) :: splitCharB s c maxF1 fuel (b + 1) (k + 1)
      else [(s.drop a).take (b - a)]

/-- Unbounded-mode loop of the character-separator `split` overload
(src/split.h, lines 70-81), fuelled as in `splitCharB`.  `te` is the
`trailing_empty` counter.  The `b==a` test of line 73 is false when
`b==npos`, since `a ≤ str_len < npos`, so the `none` case goes to the
flush-and-emplace branch. -/
def splitCharU (s : Str) (c : Char) : Nat → Nat → Nat → List Str
  | 0, _, _ => []
  | fuel + 1, a, te =>
    match findChar s c a with
    | none => List.replicate te [] ++ [s.drop a]
    | some b =>
      if b = a then
        if b + 1 < s.length then splitCharU s c fuel (b + 1) (te + 1) else []
      else
        (List.replicate te [] ++ [(s.drop a).take (b - a)]) ++
          (if b + 1 < s.length then splitCharU s c fuel (b + 1) 0 else [])

/-- The character-separator `split` overload (src/split.h, lines 52-85):
`if(max_fields--)` selects the bounded loop iff `max_fields ≠ 0`. -/
def split_char (s : Str) (c : Char) (maxFields : Nat) : List Str :=
  if s.length = 0 then []
  else if maxFields = 0 then splitCharU s c (s.length + 1) 0 0
  else splitCharB s c (maxFields - 1) (s.length + 1) 0 0

/-- The cut position `b` of the literal-separator loops (lines 108 and 116):
`str.find(sep,a) + empty_sep`, where `empty_sep = !sep_len`.  Under the loop
invariant `a ≤ str_len` the search with an empty separator always succeeds,
so the size_t wraparound `npos + 1 = 0` is dead. -/
def litCut (s sep : Str) (a : Nat) : Option Nat :=
  (findSub s sep a).map (· + if sep.length = 0 then 1 else 0)

/-- Bounded-mode loop of the literal-separator `split` overload
(src/split.h, lines 106-112), with the conventions of `splitCharB`;
the scan advances by `a = b + sep_len` (line 110). -/
def splitLitB (s sep : Str) (maxF1 : Nat) : Nat → Nat → Nat → List Str
  | 0, _, _ => []
  | fuel + 1, a, k =>
    match (if maxF1 ≤ k then none else litCut s sep a) with
    | none => [s.drop a]
    | some b =>
      if b + sep.length ≤ s.length then
        (s.drop a).take (b - a) :: splitLitB s sep maxF1 fuel (b + sep.length) (k + 1)
      else [(s.drop a).take (b - a)]

/-- Unbounded-mode loop of the literal-separator `split` overload
(src/split.h, lines 114-125), with the conventions of `splitCharU`. -/
def splitLitU (s sep : Str) : Nat → Nat → Nat → List Str
  | 0, _, _ => []
  | fuel + 1, a, te =>
    match litCut s sep a with
    | none => List.replicate te [] ++ [s.drop a]
    | some b =>
      if b = a then
        if b + sep.length < s.length then splitLitU s sep fuel (b + sep.length) (te + 1) else []
      else
        (List.replicate te [] ++ [(s.drop a).take (b - a)]) ++
          (if b + sep.length < s.length then splitLitU s sep fuel (b + sep.length) 0 else [])

/-- The literal-separator `split` overload (src/split.h, lines 93-129). -/
def split_lit (s sep : Str) (maxFields : Nat) : List Str :=
  if s.length = 0 then []
  else if maxFields = 0 then splitLitU s sep (s.length + 1) 0 0
  else splitLitB s sep (maxFields - 1) (s.length + 1) 0 0

/-- A compiled pattern, abstractly: `regex_search(a, str.end(), sep, sep_re)`
applied to the remaining text returns the leftmost match as
`(sep.position(0), sep.length(0))`, or `none` when there is no match. -/
abbrev Matcher := Str → Option (Nat × Nat)

/-- One regex cut (lines 153-162 / 172-179): on a match, `sep_len` is the
match length and the cut is `b = a + position + !sep_len`; on no match the
cut is end-of-input with `sep_len = 0`.  Returns `(sep_len, b)`. -/
def regexCut (m : Matcher) (s : Str) (a : Nat) : Nat × Nat :=
  match m (s.drop a) with
  | some (pos, len) => (len, a + pos + (if len = 0 then 1 else 0))
  | none => (0, s.length)

/-- Bounded-mode loop of the pattern-separator `split` overload
(src/split.h, lines 151-165), fuelled because the C++ loop need not
terminate; `none` means the fuel ran out, i.e. the loop is still running.
`k` is `result.size()`; the result also carries the final value of the C++
variable `b`, which line 166 inspects after the loop. -/
def splitReB (m : Matcher) (s : Str) (maxF1 : Nat) :
    Nat → Nat → Nat → Option (List Str × Nat)
  | 0, _, _ => none
  | fuel + 1, a, k =>
    let cut := if k < maxF1 then regexCut m s a else (0, s.length)
    let b := cut.2
    let fld := (s.drop a).take (b - a)
    if b + cut.1 = s.length then some ([fld], b)
    else (splitReB m s maxF1 fuel (b + cut.1) (k + 1)).map (fun r => (fld :: r.1, r.2))

/-- Unbounded-mode loop of the pattern-separator `split` overload
(src/split.h, lines 170-188), fuelled as in `splitReB`; `te` is
`trailing_empty`. -/
def splitReU (m : Matcher) (s : Str) : Nat → Nat → Nat → Option (List Str)
  | 0, _, _ => none
  | fuel + 1, a, te =>
    let cut := regexCut m s a
    let b := cut.2
    let emitted : List Str :=
      if b = a then [] else List.replicate te [] ++ [(s.drop a).take (b - a)]
    let te2 := if b = a then te + 1 else 0
    if b + cut.1 = s.length then some emitted
    else (splitReU m s fuel (b + cut.1) te2).map (emitted ++ ·)

/-- The pattern-separator `split` overload (src/split.h, lines 138-192),
including the post-loop fixup of lines 166-167: when the last cut landed
exactly on end-of-input (`b != str.cend()` is then false only if the final
field ran to the end) and fewer than `max_fields - 1` fields were produced,
one more empty field is appended. -/
def split_re (m : Matcher) (s : Str) (maxFields fuel : Nat) : Option (List Str) :=
  if s.length = 0 then some []
  else if maxFields = 0 then splitReU m s fuel 0 0
  else
    (splitReB m s (maxFields - 1) fuel 0 0).map (fun r =>
      if r.2 ≠ s.length ∧ r.1.length < maxFields - 1 then r.1 ++ [[]] else r.1)

/-- Modelled from the spec: a compiled pattern whose only match in any text
is the zero-width span at end-of-input — e.g. the ECMAScript pattern `$`.
Spec §4.1 requires pattern separators to support matches "at any position up
to and including end-of-input" (the regex engine itself is host-supplied and
not part of src/). -/
def endMatcher : Matcher := fun rem => some (rem.length, 0)

/-- Modelled from the spec: a compiled pattern whose matches are exactly the
occurrences of the literal `","` (spec §4.1 pattern strategy; the regex
engine itself is host-supplied and not part of src/). -/
def commaMatcher : Matcher := fun rem => (rem.findIdx? (fun ch => ch = ',')).map (fun i => (i, 1))

/-- Modelled from spec §4.1, the reference scan for the character strategy:
"find next occurrence by equality; the field ends at that index, next scan
resumes one position after", cutting a field at every separator occurrence,
with no field cap and no trailing-empty suppression. -/
def fieldsCharGo (s : Str) (c : Char) : Nat → Nat → List Str
  | 0, _ => []
  | fuel + 1, a =>
    match findChar s c a with
    | none => [s.drop a]
    | some b => (s.drop a).take (b - a) :: fieldsCharGo s c fuel (b + 1)

/-- The full field sequence of the spec §4.1 character-strategy scan,
starting at position 0. -/
def fieldsChar (s : Str) (c : Char) : List Str := fieldsCharGo s c (s.length + 1) 0

/-- Modelled from spec §4.1, the reference scan for the literal strategy
(zero-width rule included): every occurrence cuts a field, the scan advances
by `max(match_length, 1)`, and the scan keeps going as long as it has not
moved past end-of-input; no field cap, no suppression. -/
def fieldsLitGo (s sep : Str) : Nat → Nat → List Str
  | 0, _ => []
  | fuel + 1, a =>
    match litCut s sep a with
    | none => [s.drop a]
    | some b =>
      if b + sep.length ≤ s.length then
        (s.drop a).take (b - a) :: fieldsLitGo s sep fuel (b + sep.length)
      else [(s.drop a).take (b - a)]

/-- The full field sequence of the spec §4.1 literal-strategy scan, starting
at position 0. -/
def fieldsLit (s sep : Str) : List Str := fieldsLitGo s sep (s.length + 1) 0

/-- Trailing-empty suppression, as the spec glossary describes it: drop the
final run of empty fields. -/
def dropTrailingEmpty (l : List Str) : List Str :=
  (l.reverse.dropWhile (fun f => f.isEmpty)).reverse

/-- The `while(++second!=last)` loop of `basic_join` (src/split.h, lines
627-631): `cur` is `*first`, already written; each middle element is
preceded by `joiner`, the final one by `last_joiner`. -/
def joinLoop (j lj : Str) : Str → List Str → Str
  | cur, [] => cur
  | cur, [z] => cur ++ lj ++ z
  | cur, nxt :: z :: rest => cur ++ j ++ joinLoop j lj nxt (z :: rest)

/-- `basic_join` (src/split.h, lines 612-635) over string elements: an empty
range gives the empty string, otherwise the first element is written and the
loop handles the rest. -/
def basic_join (j lj : Str) : List Str → Str
  | [] => []
  | x :: rest => joinLoop j lj x rest

theorem matchesAt_iff {s sep : Str} {i : Nat} :
    matchesAt s sep i = true ↔
      i + sep.length ≤ s.length ∧ (s.drop i).take sep.length = sep := by
  simp [matchesAt]

theorem findSub_some {s sep : Str} {pos i : Nat} (h : findSub s sep pos = some i) :
    pos ≤ i ∧ i + sep.length ≤ s.length ∧ (s.drop i).take sep.length = sep := by
  have hp := List.find?_some h
  simp only [Bool.and_eq_true, decide_eq_true_eq, matchesAt_iff] at hp
  exact ⟨hp.1, hp.2.1, hp.2.2⟩

theorem findChar_some {s : Str} {c : Char} {pos i : Nat}
    (h : findChar s c pos = some i) :
    pos ≤ i ∧ i < s.length ∧ (s.drop i).take 1 = [c] := by
  have hp := List.find?_some h
  have hm := List.mem_of_find?_eq_some h
  simp only [List.mem_range] at hm
  simp only [Bool.and_eq_true, decide_eq_true_eq, matchesAt_iff] at hp
  exact ⟨hp.1, hm, hp.2.2⟩

theorem findSub_eq_none {s sep : Str} {pos : Nat} (h : findSub s sep pos = none) :
    ∀ i, pos ≤ i → matchesAt s sep i = false := by
  intro i hpi
  by_cases hi : i ≤ s.length
  · have h2 := List.find?_eq_none.mp h i (by simp [List.mem_range]; omega)
    simpa [hpi] using h2
  · simp only [matchesAt, Bool.and_eq_false_iff, decide_eq_false_iff_not]
    left
    omega

theorem findChar_eq_none {s : Str} {c : Char} {pos : Nat}
    (h : findChar s c pos = none) :
    ∀ i, pos ≤ i → i < s.length → ¬ (s.drop i).take 1 = [c] := by
  intro i hpi hil hm
  have h2 := List.find?_eq_none.mp h i (by simp [List.mem_range]; exact hil)
  simp only [Bool.and_eq_true, decide_eq_true_eq, matchesAt_iff, List.length_singleton] at h2
  exact h2 ⟨hpi, by omega, hm⟩

/-! ### List infrastructure -/

theorem litCut_some {s sep : Str} {a b : Nat} (h : litCut s sep a = some b) :
    a < b + sep.length ∧ b + sep.length ≤ s.length + (if sep.length = 0 then 1 else 0) := by
  rcases Option.map_eq_some'.mp h with ⟨f, hf, hb⟩
  have hs := findSub_some hf
  by_cases hsl : sep.length = 0 <;> simp [hsl] at hb ⊢ <;> omega

theorem drop_split (s : Str) (b n : Nat) :
    s.drop b = (s.drop b).take n ++ s.drop (b + n) := by
  conv_lhs => rw [← List.take_append_drop n (s.drop b)]
  rw [List.drop_drop]

theorem drop_eq_take_append {s : Str} {a b : Nat} (h : a ≤ b) :
    s.drop a = (s.drop a).take (b - a) ++ s.drop b := by
  have := drop_split s a (b - a)
  rwa [Nat.add_sub_cancel' h] at this

theorem field_take_ne_nil {s : Str} {a b : Nat} (hab : a < b) (hb : a < s.length) :
    (s.drop a).take (b - a) ≠ [] := by
  have hlen : ((s.drop a).take (b - a)).length = min (b - a) (s.length - a) := by
    simp [List.length_take]
  intro hnil
  rw [hnil] at hlen
  simp at hlen
  omega

theorem dropWhile_append_cons {p : Str → Bool} {x : Str} (hx : p x = false)
    (A B : List Str) : List.dropWhile p (A ++ x :: B) = List.dropWhile p A ++ x :: B := by
  induction A with
  | nil => simp [List.dropWhile_cons, hx]
  | cons a A ih =>
      by_cases ha : p a = true
      · simp [List.dropWhile_cons, ha, ih]
      · simp [List.dropWhile_cons, ha]

theorem dTE_append_cons {x : Str} (hx : x ≠ []) (A B : List Str) :
    dropTrailingEmpty (A ++ x :: B) = A ++ x :: dropTrailingEmpty B := by
  have hpx : x.isEmpty = false := by
    cases x with
    | nil => exact absurd rfl hx
    | cons y ys => rfl
  unfold dropTrailingEmpty
  rw [show A ++ x :: B = (A ++ [x]) ++ B by simp]
  rw [List.reverse_append, List.reverse_append]
  simp only [List.reverse_cons, List.reverse_nil, List.nil_append, List.singleton_append]
  rw [dropWhile_append_cons hpx]
  simp

theorem dTE_replicate (n : Nat) :
    dropTrailingEmpty (List.replicate n ([] : Str)) = [] := by
  unfold dropTrailingEmpty
  rw [List.reverse_replicate]
  rw [List.dropWhile_eq_nil_iff.mpr (by intro x hx; simp [List.eq_of_mem_replicate hx])]
  rfl

theorem dTE_concat_empty (l : List Str) :
    dropTrailingEmpty (l ++ [[]]) = dropTrailingEmpty l := by
  unfold dropTrailingEmpty
  simp [List.dropWhile_cons]

theorem dTE_eq_self {l : List Str} {f : Str} (hl : l.getLast? = some f) (hf : f ≠ []) :
    dropTrailingEmpty l = l := by
  rcases List.getLast?_eq_some_iff.mp hl with ⟨l1, rfl⟩
  rw [dTE_append_cons hf l1 []]
  rfl

theorem replicate_snoc_empty (n : Nat) (rest : List Str) :
    List.replicate n ([] : Str) ++ [] :: rest = List.replicate (n + 1) ([] : Str) ++ rest := by
  rw [List.replicate_succ' n]
  simp

/-! ### Join lemmas -/

theorem basic_join_nil (j lj : Str) : basic_join j lj [] = [] := rfl

theorem basic_join_single (j lj x : Str) : basic_join j lj [x] = x := rfl

theorem basic_join_cons {l : List Str} (hl : l ≠ []) (j x : Str) :
    basic_join j j (x :: l) = x ++ j ++ basic_join j j l := by
  cases l with
  | nil => exact absurd rfl hl
  | cons z r =>
      cases r with
      | nil => simp [basic_join, joinLoop]
      | cons w t => simp [basic_join, joinLoop]

theorem joinLoop_concat (j lj : Str) :
    ∀ cur l z, joinLoop j lj cur (l ++ [z]) = joinLoop j j cur l ++ lj ++ z
  | cur, [], z => by simp [joinLoop]
  | cur, [w], z => by simp [joinLoop]
  | cur, w :: v :: r, z => by
      have ih := joinLoop_concat j lj w (v :: r) z
      simp only [List.cons_append] at ih ⊢
      rw [joinLoop, ih, joinLoop]
      simp

theorem basic_join_concat {l : List Str} (hl : l ≠ []) (j lj z : Str) :
    basic_join j lj (l ++ [z]) = basic_join j j l ++ lj ++ z := by
  cases l with
  | nil => exact absurd rfl hl
  | cons x r => simpa [basic_join] using joinLoop_concat j lj x r z

/-! ### Further facts about the find primitives -/

theorem range_find?_first {q : Nat → Bool} {n a : Nat}
    (hlow : ∀ i, i < a → q i = false) (hq : q a = true) (han : a < n) :
    (List.range n).find? q = some a := by
  have hn : n = (a + 1) + (n - (a + 1)) := by omega
  rw [hn, List.range_add, List.find?_append]
  have h0 : (List.range a).find? q = none := by
    rw [List.find?_eq_none]
    intro x hx
    simp only [List.mem_range] at hx
    simp [hlow x hx]
  have h1 : (List.range (a + 1)).find? q = some a := by
    rw [List.range_succ, List.find?_append, h0]
    simp [List.find?, hq]
  rw [h1]
  rfl

theorem findSub_empty {s : Str} {pos : Nat} (h : pos ≤ s.length) :
    findSub s [] pos = some pos := by
  apply range_find?_first
  · intro i hi
    have : ¬ pos ≤ i := by omega
    simp [this]
  · simp [matchesAt, h]
  · omega

theorem findChar_at_ge {s : Str} {c : Char} {pos : Nat} (h : s.length ≤ pos) :
    findChar s c pos = none := by
  rw [findChar, List.find?_eq_none]
  intro i hi
  simp only [List.mem_range] at hi
  simp only [Bool.and_eq_true, decide_eq_true_eq, not_and]
  intro hpi
  omega

theorem findSub_singleton (s : Str) (c : Char) (pos : Nat) :
    findSub s [c] pos = findChar s c pos := by
  rw [findSub, findChar, List.range_succ, List.find?_append]
  have hlast : List.find? (fun i => decide (pos ≤ i) && matchesAt s [c] i) [s.length] = none := by
    simp [List.find?, matchesAt]
  rw [hlast, Option.or_none]

theorem litCut_singleton (s : Str) (c : Char) (a : Nat) :
    litCut s [c] a = findChar s c a := by
  rw [litCut, findSub_singleton]
  cases findChar s c a <;> simp

theorem litCut_empty {s : Str} {a : Nat} (h : a ≤ s.length) :
    litCut s [] a = some (a + 1) := by
  rw [litCut, findSub_empty h]
  simp

theorem litCut_some_of_ne {s sep : Str} {a b : Nat} (hsep : sep ≠ [])
    (h : litCut s sep a = some b) :
    a ≤ b ∧ b + sep.length ≤ s.length ∧ (s.drop b).take sep.length = sep := by
  rcases Option.map_eq_some'.mp h with ⟨f, hf, hb⟩
  have hs := findSub_some hf
  have hL : sep.length ≠ 0 := by
    intro h0
    exact hsep (List.eq_nil_of_length_eq_zero h0)
  simp only [if_neg hL, Nat.add_zero] at hb
  subst hb
  exact hs

theorem char_cut_decomp {s : Str} {c : Char} {pos b : Nat}
    (h : findChar s c pos = some b) : s.drop b = c :: s.drop (b + 1) := by
  have h3 := (findChar_some h).2.2
  have := drop_split s b 1
  rw [h3] at this
  simpa using this

theorem lit_cut_decomp {s sep : Str} {a b : Nat} (hsep : sep ≠ [])
    (h : litCut s sep a = some b) : s.drop b = sep ++ s.drop (b + sep.length) := by
  have h3 := (litCut_some_of_ne hsep h).2.2
  have := drop_split s b sep.length
  rwa [h3] at this

/-! ### Behaviour of the reference scans -/

theorem fieldsCharGo_at_ge {s : Str} {c : Char} {a : Nat} (fuel : Nat)
    (hfuel : 0 < fuel) (ha : s.length ≤ a) : fieldsCharGo s c fuel a = [[]] := by
  cases fuel with
  | zero => omega
  | succ f =>
      rw [fieldsCharGo, findChar_at_ge ha]
      simp [List.drop_eq_nil_of_le ha]

theorem fieldsLitGo_at_ge {s sep : Str} {a : Nat} (fuel : Nat)
    (hfuel : 0 < fuel) (ha : s.length ≤ a) : fieldsLitGo s sep fuel a = [[]] := by
  cases fuel with
  | zero => omega
  | succ f =>
      rw [fieldsLitGo]
      cases hcut : litCut s sep a with
      | none => simp [List.drop_eq_nil_of_le ha]
      | some b =>
          by_cases hsep : sep = []
          · subst hsep
            rcases Option.map_eq_some'.mp hcut with ⟨f2, hf2, hb2⟩
            have hf2b := findSub_some hf2
            have hae : a = s.length := by
              simp only [List.length_nil, Nat.add_zero] at hf2b
              omega
            have hb : b = a + 1 := by
              rw [litCut_empty (Nat.le_of_eq hae)] at hcut
              exact (Option.some_inj.mp hcut).symm
            subst hb
            dsimp only
            rw [if_neg (by simp only [List.length_nil, Nat.add_zero]; omega)]
            simp [List.drop_eq_nil_of_le ha]
          · exfalso
            have h2 := litCut_some_of_ne hsep hcut
            have hL : sep.length ≠ 0 := fun h0 => hsep (List.eq_nil_of_length_eq_zero h0)
            omega

theorem fieldsCharGo_ne_nil {s : Str} {c : Char} {fuel a : Nat} (hfuel : 0 < fuel) :
    fieldsCharGo s c fuel a ≠ [] := by
  cases fuel with
  | zero => omega
  | succ f =>
      rw [fieldsCharGo]
      cases findChar s c a <;> simp

theorem fieldsLitGo_ne_nil {s sep : Str} {fuel a : Nat} (hfuel : 0 < fuel) :
    fieldsLitGo s sep fuel a ≠ [] := by
  cases fuel with
  | zero => omega
  | succ f =>
      rw [fieldsLitGo]
      cases litCut s sep a with
      | none => simp
      | some b =>
          dsimp only
          by_cases h : b + sep.length ≤ s.length <;> simp [h]

theorem bj_fieldsCharGo (s : Str) (c : Char) :
    ∀ fuel a, a ≤ s.length → s.length + 1 ≤ fuel + a →
      basic_join [c] [c] (fieldsCharGo s c fuel a) = s.drop a
  | 0, a, ha, hf => by omega
  | fuel + 1, a, ha, hf => by
      rw [fieldsCharGo]
      cases hfind : findChar s c a with
      | none => exact basic_join_single _ _ _
      | some b =>
          obtain ⟨hab, hbl, _⟩ := findChar_some hfind
          dsimp only
          have hrec := bj_fieldsCharGo s c fuel (b + 1) (by omega) (by omega)
          have hne : fieldsCharGo s c fuel (b + 1) ≠ [] := fieldsCharGo_ne_nil (by omega)
          rw [basic_join_cons hne, hrec, List.append_assoc, List.singleton_append,
            ← char_cut_decomp hfind, ← drop_eq_take_append hab]

theorem litCut_facts_le {s sep : Str} {a b : Nat} (ha : a ≤ s.length)
    (hcut : litCut s sep a = some b) :
    a ≤ b ∧ a < b + sep.length ∧ s.drop b = sep ++ s.drop (b + sep.length) ∧
      (b + sep.length ≤ s.length ∨ (sep.length = 0 ∧ b = a + 1)) := by
  by_cases hL : sep.length = 0
  · have hsep : sep = [] := List.eq_nil_of_length_eq_zero hL
    subst hsep
    rw [litCut_empty ha] at hcut
    have hb := Option.some_inj.mp hcut
    subst hb
    exact ⟨by omega, by simp, by simp, Or.inr ⟨rfl, rfl⟩⟩
  · have hsep : sep ≠ [] := fun h => hL (by simp [h])
    obtain ⟨h1, h2, _⟩ := litCut_some_of_ne hsep hcut
    exact ⟨h1, by omega, lit_cut_decomp hsep hcut, Or.inl h2⟩

theorem bj_fieldsLitGo (s sep : Str) :
    ∀ fuel a, a ≤ s.length → s.length + 1 ≤ fuel + a →
      basic_join sep sep (fieldsLitGo s sep fuel a) = s.drop a
  | 0, a, ha, hf => by omega
  | fuel + 1, a, ha, hf => by
      rw [fieldsLitGo]
      cases hcut : litCut s sep a with
      | none => exact basic_join_single _ _ _
      | some b =>
          obtain ⟨hab, hablt, hdecomp, hor⟩ := litCut_facts_le ha hcut
          dsimp only
          by_cases hgate : b + sep.length ≤ s.length
          · rw [if_pos hgate]
            have hrec := bj_fieldsLitGo s sep fuel (b + sep.length) (by omega) (by omega)
            have hne : fieldsLitGo s sep fuel (b + sep.length) ≠ [] :=
              fieldsLitGo_ne_nil (by omega)
            rw [basic_join_cons hne, hrec, List.append_assoc, ← hdecomp,
              ← drop_eq_take_append hab]
          · rw [if_neg hgate]
            rw [basic_join_single]
            have hdnil : s.drop a = [] := by
              apply List.drop_eq_nil_of_le
              omega
            rw [hdnil]
            simp [List.drop_eq_nil_iff.mp hdnil]

theorem drop_pred_of_getLast {s : Str} {c : Char} (h : s.getLast? = some c) :
    s.drop (s.length - 1) = [c] ∧ 0 < s.length := by
  rcases List.getLast?_eq_some_iff.mp h with ⟨ys, rfl⟩
  constructor
  · have : (ys ++ [c]).length - 1 = ys.length := by simp
    rw [this, List.drop_left]
  · simp

theorem getLast_of_drop_single {s : Str} {c : Char} {b : Nat}
    (hdrop : s.drop b = [c]) : s.getLast? = some c := by
  rw [List.getLast?_eq_some_iff]
  exact ⟨s.take b, by rw [← hdrop]; exact (List.take_append_drop b s).symm⟩

theorem fieldsCharGo_getLast_sep (s : Str) (c : Char) :
    ∀ fuel a, a ≤ s.length → s.length + 1 ≤ fuel + a → s.getLast? = some c →
      (fieldsCharGo s c fuel a).getLast? = some []
  | 0, a, ha, hf, hlast => by omega
  | fuel + 1, a, ha, hf, hlast => by
      rw [fieldsCharGo]
      cases hfind : findChar s c a with
      | none =>
          have hd := drop_pred_of_getLast hlast
          have hal : s.length ≤ a := by
            by_contra hcon
            refine findChar_eq_none hfind (s.length - 1) (by omega) (by omega) ?_
            rw [hd.1]
            rfl
          have : s.drop a = [] := List.drop_eq_nil_iff.mpr hal
          simp [this]
      | some b =>
          obtain ⟨hab, hbl, _⟩ := findChar_some hfind
          dsimp only
          have hrec := fieldsCharGo_getLast_sep s c fuel (b + 1) (by omega) (by omega) hlast
          rcases htail : fieldsCharGo s c fuel (b + 1) with _ | ⟨r0, rtail⟩
          · exact absurd htail (fieldsCharGo_ne_nil (by omega))
          · rw [htail] at hrec
            rw [List.getLast?_cons_cons]
            exact hrec

theorem fieldsCharGo_getLast_ne (s : Str) (c : Char) :
    ∀ fuel a, a < s.length → s.length + 1 ≤ fuel + a → s.getLast? ≠ some c →
      ∃ f, (fieldsCharGo s c fuel a).getLast? = some f ∧ f ≠ []
  | 0, a, ha, hf, hlast => by omega
  | fuel + 1, a, ha, hf, hlast => by
      rw [fieldsCharGo]
      cases hfind : findChar s c a with
      | none =>
          refine ⟨s.drop a, by simp, ?_⟩
          rw [Ne, List.drop_eq_nil_iff]
          omega
      | some b =>
          obtain ⟨hab, hbl, _⟩ := findChar_some hfind
          have hblt : b + 1 < s.length := by
            rcases Nat.lt_or_ge (b + 1) s.length with h | h
            · exact h
            · exfalso
              have hb1 : b + 1 = s.length := by omega
              have hdb : s.drop b = [c] := by
                rw [char_cut_decomp hfind, hb1, List.drop_length]
              exact hlast (getLast_of_drop_single hdb)
          dsimp only
          have hrec := fieldsCharGo_getLast_ne s c fuel (b + 1) hblt (by omega) hlast
          rcases htail : fieldsCharGo s c fuel (b + 1) with _ | ⟨r0, rtail⟩
          · exact absurd htail (fieldsCharGo_ne_nil (by omega))
          · rw [htail] at hrec
            rw [List.getLast?_cons_cons]
            exact hrec

theorem fieldsLitGo_getLast_ne (s sep : Str) (hsep : sep ≠ []) :
    ∀ fuel a, a < s.length → s.length + 1 ≤ fuel + a → ¬ sep <:+ s →
      ∃ f, (fieldsLitGo s sep fuel a).getLast? = some f ∧ f ≠ []
  | 0, a, ha, hf, hsuf => by omega
  | fuel + 1, a, ha, hf, hsuf => by
      rw [fieldsLitGo]
      cases hcut : litCut s sep a with
      | none =>
          refine ⟨s.drop a, by simp, ?_⟩
          rw [Ne, List.drop_eq_nil_iff]
          omega
      | some b =>
          obtain ⟨hab, hbl, _⟩ := litCut_some_of_ne hsep hcut
          have hL : sep.length ≠ 0 := fun h0 => hsep (List.eq_nil_of_length_eq_zero h0)
          have hblt : b + sep.length < s.length := by
            rcases Nat.lt_or_ge (b + sep.length) s.length with h | h
            · exact h
            · exfalso
              have hbL : b + sep.length = s.length := by omega
              have hdb : s.drop b = sep := by
                rw [lit_cut_decomp hsep hcut, hbL, List.drop_length, List.append_nil]
              exact hsuf (hdb ▸ List.drop_suffix b s)
          dsimp only
          rw [if_pos (by omega)]
          have hrec := fieldsLitGo_getLast_ne s sep hsep fuel (b + sep.length) hblt (by omega) hsuf
          rcases htail : fieldsLitGo s sep fuel (b + sep.length) with _ | ⟨r0, rtail⟩
          · exact absurd htail (fieldsLitGo_ne_nil (by omega))
          · rw [htail] at hrec
            rw [List.getLast?_cons_cons]
            exact hrec

/-! ### The unbounded loops implement trailing-empty suppression -/

theorem splitCharU_eq (s : Str) (c : Char) :
    ∀ fuel a te, a < s.length → s.length + 1 ≤ fuel + a →
      splitCharU s c fuel a te =
        dropTrailingEmpty (List.replicate te [] ++ fieldsCharGo s c fuel a)
  | 0, a, te, ha, hf => by omega
  | fuel + 1, a, te, ha, hf => by
      rw [splitCharU, fieldsCharGo]
      cases hfind : findChar s c a with
      | none =>
          dsimp only
          have hne : s.drop a ≠ [] := by
            rw [Ne, List.drop_eq_nil_iff]
            omega
          rw [dTE_append_cons hne]
          rfl
      | some b =>
          obtain ⟨hab, hbl, _⟩ := findChar_some hfind
          dsimp only
          by_cases hba : b = a
          · subst hba
            rw [if_pos rfl, Nat.sub_self, List.take_zero]
            by_cases hlt : b + 1 < s.length
            · rw [if_pos hlt]
              rw [splitCharU_eq s c fuel (b + 1) (te + 1) hlt (by omega)]
              rw [replicate_snoc_empty]
            · rw [if_neg hlt]
              rw [fieldsCharGo_at_ge fuel (by omega) (by omega)]
              rw [replicate_snoc_empty, ← List.replicate_succ', dTE_replicate]
          · rw [if_neg hba]
            have hbgt : a < b := Nat.lt_of_le_of_ne hab (Ne.symm hba)
            have hfld : (s.drop a).take (b - a) ≠ [] := field_take_ne_nil hbgt ha
            by_cases hlt : b + 1 < s.length
            · rw [if_pos hlt]
              rw [splitCharU_eq s c fuel (b + 1) 0 hlt (by omega)]
              rw [dTE_append_cons hfld]
              simp
            · rw [if_neg hlt]
              rw [fieldsCharGo_at_ge fuel (by omega) (by omega)]
              rw [dTE_append_cons hfld]
              rw [show dropTrailingEmpty [[]] = [] from rfl]
              simp

theorem litCut_facts {s sep : Str} {a b : Nat} (ha : a < s.length)
    (hcut : litCut s sep a = some b) :
    b + sep.length ≤ s.length ∧ a ≤ b ∧ (sep.length = 0 → b = a + 1) := by
  by_cases hL : sep.length = 0
  · have hsep : sep = [] := List.eq_nil_of_length_eq_zero hL
    subst hsep
    rw [litCut_empty (by omega)] at hcut
    have hb := Option.some_inj.mp hcut
    refine ⟨by omega, by omega, fun _ => hb.symm⟩
  · have hsep : sep ≠ [] := fun hnil => hL (by simp [hnil])
    obtain ⟨h1, h2, _⟩ := litCut_some_of_ne hsep hcut
    exact ⟨h2, h1, fun h0 => absurd h0 hL⟩

theorem splitLitU_eq (s sep : Str) :
    ∀ fuel a te, a < s.length → s.length + 1 ≤ fuel + a →
      splitLitU s sep fuel a te =
        dropTrailingEmpty (List.replicate te [] ++ fieldsLitGo s sep fuel a)
  | 0, a, te, ha, hf => by omega
  | fuel + 1, a, te, ha, hf => by
      rw [splitLitU, fieldsLitGo]
      cases hcut : litCut s sep a with
      | none =>
          dsimp only
          have hne : s.drop a ≠ [] := by
            rw [Ne, List.drop_eq_nil_iff]
            omega
          rw [dTE_append_cons hne]
          rfl
      | some b =>
          obtain ⟨hble, haleb, hempty⟩ := litCut_facts ha hcut
          dsimp only
          rw [if_pos hble]
          by_cases hba : b = a
          · subst hba
            rw [if_pos rfl, Nat.sub_self, List.take_zero]
            by_cases hlt : b + sep.length < s.length
            · rw [if_pos hlt]
              rw [splitLitU_eq s sep fuel (b + sep.length) (te + 1) hlt (by omega)]
              rw [replicate_snoc_empty]
            · rw [if_neg hlt]
              rw [fieldsLitGo_at_ge fuel (by omega) (by omega)]
              rw [replicate_snoc_empty, ← List.replicate_succ', dTE_replicate]
          · rw [if_neg hba]
            have hbgt : a < b := Nat.lt_of_le_of_ne haleb (Ne.symm hba)
            have hfld : (s.drop a).take (b - a) ≠ [] := field_take_ne_nil hbgt ha
            by_cases hlt : b + sep.length < s.length
            · rw [if_pos hlt]
              rw [splitLitU_eq s sep fuel (b + sep.length) 0 hlt (by omega)]
              rw [dTE_append_cons hfld]
              simp
            · rw [if_neg hlt]
              rw [fieldsLitGo_at_ge fuel (by omega) (by omega)]
              rw [dTE_append_cons hfld]
              rw [show dropTrailingEmpty [[]] = [] from rfl]
              simp

/-! ### The bounded loop: first `max_fields - 1` cuts, then the verbatim rest -/

theorem splitCharB_eq (s : Str) (c : Char) (maxF1 : Nat) :
    ∀ fuel a k, a ≤ s.length → s.length + 1 ≤ fuel + a →
      splitCharB s c maxF1 fuel a k =
        if maxF1 ≤ k then [s.drop a]
        else
          (fieldsCharGo s c fuel a).take (maxF1 - k) ++
            (if (fieldsCharGo s c fuel a).length ≤ maxF1 - k then []
             else [basic_join [c] [c] ((fieldsCharGo s c fuel a).drop (maxF1 - k))])
  | 0, a, k, ha, hf => by omega
  | fuel + 1, a, k, ha, hf => by
      by_cases hk : maxF1 ≤ k
      · rw [splitCharB]
        simp only [if_pos hk]
      · rw [splitCharB, fieldsCharGo]
        simp only [if_neg hk]
        cases hfind : findChar s c a with
        | none =>
            dsimp only
            have hm : 1 ≤ maxF1 - k := by omega
            rw [List.take_of_length_le (by simpa using hm), if_pos (by simpa using hm)]
            simp
        | some b =>
            obtain ⟨hab, hbl, _⟩ := findChar_some hfind
            dsimp only
            rw [if_pos (show b + 1 ≤ s.length by omega)]
            rw [splitCharB_eq s c maxF1 fuel (b + 1) (k + 1) (by omega) (by omega)]
            have hrne : fieldsCharGo s c fuel (b + 1) ≠ [] := fieldsCharGo_ne_nil (by omega)
            have hrlen : (fieldsCharGo s c fuel (b + 1)).length ≠ 0 := by
              simpa [List.length_eq_zero] using hrne
            by_cases hk1 : maxF1 ≤ k + 1
            · rw [if_pos hk1]
              have hm : maxF1 - k = 1 := by omega
              rw [hm, List.take_succ_cons, List.take_zero, List.drop_succ_cons, List.drop_zero]
              rw [if_neg (by simp only [List.length_cons]; omega)]
              rw [bj_fieldsCharGo s c fuel (b + 1) (by omega) (by omega)]
              rfl
            · rw [if_neg hk1]
              obtain ⟨m1, hm⟩ : ∃ m1, maxF1 - k = m1 + 1 := ⟨maxF1 - k - 1, by omega⟩
              have hm1 : maxF1 - (k + 1) = m1 := by omega
              rw [hm1, hm, List.take_succ_cons, List.drop_succ_cons]
              simp only [List.length_cons, Nat.add_le_add_iff_right, List.cons_append]

/-! ### The two overloads agree on single-character separators -/

theorem splitCharB_eq_litB (s : Str) (c : Char) (maxF1 : Nat) :
    ∀ fuel a k, splitCharB s c maxF1 fuel a k = splitLitB s [c] maxF1 fuel a k
  | 0, _, _ => rfl
  | fuel + 1, a, k => by
      rw [splitCharB, splitLitB, litCut_singleton]
      cases hfind : (if maxF1 ≤ k then none else findChar s c a) with
      | none => rfl
      | some b =>
          dsimp only
          simp only [List.length_singleton]
          rw [splitCharB_eq_litB s c maxF1 fuel (b + 1) (k + 1)]

theorem splitCharU_eq_litU (s : Str) (c : Char) :
    ∀ fuel a te, splitCharU s c fuel a te = splitLitU s [c] fuel a te
  | 0, _, _ => rfl
  | fuel + 1, a, te => by
      rw [splitCharU, splitLitU, litCut_singleton]
      cases hfind : findChar s c a with
      | none => rfl
      | some b =>
          dsimp only
          simp only [List.length_singleton]
          rw [splitCharU_eq_litU s c fuel (b + 1) (te + 1),
            splitCharU_eq_litU s c fuel (b + 1) 0]

/-! ### A zero-width match at end-of-input makes the pattern loop overrun -/

theorem splitReU_endMatcher_gt (s : Str) :
    ∀ fuel a te, s.length < a → splitReU endMatcher s fuel a te = none
  | 0, _, _, _ => rfl
  | fuel + 1, a, te, ha => by
      have hdrop : s.drop a = [] := List.drop_eq_nil_of_le (by omega)
      rw [splitReU]
      have hcut : regexCut endMatcher s a = (0, a + 1) := by
        simp [regexCut, endMatcher, hdrop]
      rw [hcut]
      dsimp only
      rw [if_neg (show ¬ (a + 1 + 0 = s.length) by omega)]
      rw [splitReU_endMatcher_gt s fuel (a + 1 + 0) _ (by omega)]
      rfl

/-! ### The empty literal separator cuts one character per step -/

theorem splitLitU_empty_sep (s : Str) :
    ∀ fuel a, a < s.length → s.length + 1 ≤ fuel + a →
      splitLitU s [] fuel a 0 = (s.drop a).map (fun ch => [ch])
  | 0, a, ha, hf => by omega
  | fuel + 1, a, ha, hf => by
      rw [splitLitU, litCut_empty (by omega)]
      dsimp only
      rw [if_neg (by omega)]
      have hdrop := List.drop_eq_getElem_cons (l := s) (n := a) ha
      simp only [List.length_nil, Nat.add_zero, List.replicate_zero, List.nil_append]
      have htake : (s.drop a).take (a + 1 - a) = [s[a]] := by
        rw [hdrop, Nat.add_sub_cancel_left, List.take_succ_cons, List.take_zero]
      by_cases hlt : a + 1 < s.length
      · rw [if_pos hlt]
        rw [splitLitU_empty_sep s fuel (a + 1) hlt (by omega)]
        rw [htake, hdrop]
        simp only [List.map_cons, List.singleton_append]
      · rw [if_neg hlt]
        have hnil : s.drop (a + 1) = [] := List.drop_eq_nil_of_le (by omega)
        rw [htake, hdrop, hnil]
        simp

/-! ### Top-level characterisations of `split` -/

theorem split_char_unbounded (s : Str) (c : Char) :
    split_char s c 0 = dropTrailingEmpty (fieldsChar s c) := by
  by_cases hs : s.length = 0
  · have : s = [] := List.eq_nil_of_length_eq_zero hs
    subst this
    rfl
  · rw [split_char, if_neg hs, if_pos rfl]
    rw [splitCharU_eq s c (s.length + 1) 0 0 (by omega) (by omega)]
    simp [fieldsChar]

theorem findSub_nil_of_ne {sep : Str} (hsep : sep ≠ []) (pos : Nat) :
    findSub [] sep pos = none := by
  rw [findSub, List.find?_eq_none]
  intro i hi
  simp only [Bool.and_eq_true, decide_eq_true_eq, matchesAt_iff, not_and, List.length_nil]
  intro _ hcon _
  exact hsep (List.eq_nil_of_length_eq_zero (by omega))

theorem split_lit_unbounded (s sep : Str) :
    split_lit s sep 0 = dropTrailingEmpty (fieldsLit s sep) := by
  by_cases hs : s.length = 0
  · have : s = [] := List.eq_nil_of_length_eq_zero hs
    subst this
    by_cases hsep : sep = []
    · subst hsep
      rfl
    · have hnone : litCut [] sep 0 = none := by
        rw [litCut, findSub_nil_of_ne hsep]
        rfl
      show ([] : List Str) = dropTrailingEmpty (fieldsLit [] sep)
      rw [fieldsLit, fieldsLitGo, hnone]
      rfl
  · rw [split_lit, if_neg hs, if_pos rfl]
    rw [splitLitU_eq s sep (s.length + 1) 0 0 (by omega) (by omega)]
    simp [fieldsLit]

theorem split_char_pos (s : Str) (c : Char) (maxF : Nat)
    (hs : s.length ≠ 0) (hm : maxF ≠ 0) :
    split_char s c maxF =
      if maxF - 1 ≤ 0 then [s]
      else
        (fieldsChar s c).take (maxF - 1) ++
          (if (fieldsChar s c).length ≤ maxF - 1 then []
           else [basic_join [c] [c] ((fieldsChar s c).drop (maxF - 1))]) := by
  rw [split_char, if_neg hs, if_neg hm,
    splitCharB_eq s c (maxF - 1) (s.length + 1) 0 0 (by omega) (by omega)]
  simp only [fieldsChar, Nat.sub_zero, List.drop_zero]

theorem bj_fieldsChar (s : Str) (c : Char) :
    basic_join [c] [c] (fieldsChar s c) = s := by
  by_cases hs : s.length = 0
  · have : s = [] := List.eq_nil_of_length_eq_zero hs
    subst this
    rfl
  · have := bj_fieldsCharGo s c (s.length + 1) 0 (by omega) (by omega)
    simpa [fieldsChar] using this

theorem fieldsChar_ne_nil (s : Str) (c : Char) : fieldsChar s c ≠ [] :=
  fieldsCharGo_ne_nil (by omega)

theorem split_char_eq_fields_of_le (s : Str) (c : Char) (maxF : Nat)
    (hs : s.length ≠ 0) (hm : maxF ≠ 0)
    (hcap : (fieldsChar s c).length ≤ maxF) :
    split_char s c maxF = fieldsChar s c := by
  have hn1 : 1 ≤ (fieldsChar s c).length := by
    have := fieldsChar_ne_nil s c
    rcases List.exists_cons_of_ne_nil this with ⟨y, ys, hys⟩
    simp [hys]
  rw [split_char_pos s c maxF hs hm]
  by_cases h1 : maxF - 1 ≤ 0
  · rw [if_pos h1]
    have hn : (fieldsChar s c).length = 1 := by omega
    rcases List.length_eq_one.mp hn with ⟨f, hf⟩
    have hbj := bj_fieldsChar s c
    rw [hf, basic_join_single] at hbj
    rw [hf, hbj]
  · rw [if_neg h1]
    by_cases h2 : (fieldsChar s c).length ≤ maxF - 1
    · rw [if_pos h2, List.take_of_length_le h2, List.append_nil]
    · rw [if_neg h2]
      have hlen : ((fieldsChar s c).drop (maxF - 1)).length = 1 := by
        rw [List.length_drop]
        omega
      rcases List.length_eq_one.mp hlen with ⟨z, hz⟩
      rw [hz, basic_join_single, ← hz, List.take_append_drop]

theorem splitLitB_eq (s sep : Str) (maxF1 : Nat) :
    ∀ fuel a k, a ≤ s.length → s.length + 1 ≤ fuel + a →
      splitLitB s sep maxF1 fuel a k =
        if maxF1 ≤ k then [s.drop a]
        else
          (fieldsLitGo s sep fuel a).take (maxF1 - k) ++
            (if (fieldsLitGo s sep fuel a).length ≤ maxF1 - k then []
             else [basic_join sep sep ((fieldsLitGo s sep fuel a).drop (maxF1 - k))])
  | 0, a, k, ha, hf => by omega
  | fuel + 1, a, k, ha, hf => by
      by_cases hk : maxF1 ≤ k
      · rw [splitLitB]
        simp only [if_pos hk]
      · rw [splitLitB, fieldsLitGo]
        simp only [if_neg hk]
        cases hcut : litCut s sep a with
        | none =>
            dsimp only
            have hm : 1 ≤ maxF1 - k := by omega
            rw [List.take_of_length_le (by simpa using hm), if_pos (by simpa using hm)]
            simp
        | some b =>
            obtain ⟨hab, hablt, hdecomp, hor⟩ := litCut_facts_le ha hcut
            dsimp only
            by_cases hgate : b + sep.length ≤ s.length
            · rw [if_pos hgate, if_pos hgate]
              rw [splitLitB_eq s sep maxF1 fuel (b + sep.length) (k + 1) (by omega) (by omega)]
              have hrne : fieldsLitGo s sep fuel (b + sep.length) ≠ [] :=
                fieldsLitGo_ne_nil (by omega)
              have hrlen : (fieldsLitGo s sep fuel (b + sep.length)).length ≠ 0 := by
                simpa [List.length_eq_zero] using hrne
              by_cases hk1 : maxF1 ≤ k + 1
              · rw [if_pos hk1]
                have hm : maxF1 - k = 1 := by omega
                rw [hm, List.take_succ_cons, List.take_zero, List.drop_succ_cons,
                  List.drop_zero]
                rw [if_neg (by simp only [List.length_cons]; omega)]
                rw [bj_fieldsLitGo s sep fuel (b + sep.length) (by omega) (by omega)]
                rfl
              · rw [if_neg hk1]
                obtain ⟨m1, hm⟩ : ∃ m1, maxF1 - k = m1 + 1 := ⟨maxF1 - k - 1, by omega⟩
                have hm1 : maxF1 - (k + 1) = m1 := by omega
                rw [hm1, hm, List.take_succ_cons, List.drop_succ_cons]
                simp only [List.length_cons, Nat.add_le_add_iff_right, List.cons_append]
            · rw [if_neg hgate, if_neg hgate]
              obtain ⟨m1, hm⟩ : ∃ m1, maxF1 - k = m1 + 1 := ⟨maxF1 - k - 1, by omega⟩
              rw [hm, List.take_succ_cons, List.take_nil,
                if_pos (by simp only [List.length_singleton]; omega)]
              simp

theorem split_lit_pos (s sep : Str) (maxF : Nat)
    (hs : s.length ≠ 0) (hm : maxF ≠ 0) :
    split_lit s sep maxF =
      if maxF - 1 ≤ 0 then [s]
      else
        (fieldsLit s sep).take (maxF - 1) ++
          (if (fieldsLit s sep).length ≤ maxF - 1 then []
           else [basic_join sep sep ((fieldsLit s sep).drop (maxF - 1))]) := by
  rw [split_lit, if_neg hs, if_neg hm,
    splitLitB_eq s sep (maxF - 1) (s.length + 1) 0 0 (by omega) (by omega)]
  simp only [fieldsLit, Nat.sub_zero, List.drop_zero]

theorem bj_fieldsLit (s sep : Str) : basic_join sep sep (fieldsLit s sep) = s := by
  by_cases hs : s.length = 0
  · have : s = [] := List.eq_nil_of_length_eq_zero hs
    subst this
    by_cases hsep : sep = []
    · subst hsep
      rfl
    · have hnone : litCut [] sep 0 = none := by
        rw [litCut, findSub_nil_of_ne hsep]
        rfl
      rw [fieldsLit, fieldsLitGo, hnone]
      rfl
  · have := bj_fieldsLitGo s sep (s.length + 1) 0 (by omega) (by omega)
    simpa [fieldsLit] using this

theorem fieldsLit_ne_nil (s sep : Str) : fieldsLit s sep ≠ [] :=
  fieldsLitGo_ne_nil (by omega)

theorem split_lit_eq_fields_of_le (s sep : Str) (maxF : Nat)
    (hs : s.length ≠ 0) (hm : maxF ≠ 0)
    (hcap : (fieldsLit s sep).length ≤ maxF) :
    split_lit s sep maxF = fieldsLit s sep := by
  have hn1 : 1 ≤ (fieldsLit s sep).length := by
    rcases List.exists_cons_of_ne_nil (fieldsLit_ne_nil s sep) with ⟨y, ys, hys⟩
    simp [hys]
  rw [split_lit_pos s sep maxF hs hm]
  by_cases h1 : maxF - 1 ≤ 0
  · rw [if_pos h1]
    have hn : (fieldsLit s sep).length = 1 := by omega
    rcases List.length_eq_one.mp hn with ⟨f, hf⟩
    have hbj := bj_fieldsLit s sep
    rw [hf, basic_join_single] at hbj
    rw [hf, hbj]
  · rw [if_neg h1]
    by_cases h2 : (fieldsLit s sep).length ≤ maxF - 1
    · rw [if_pos h2, List.take_of_length_le h2, List.append_nil]
    · rw [if_neg h2]
      have hlen : ((fieldsLit s sep).drop (maxF - 1)).length = 1 := by
        rw [List.length_drop]
        omega
      rcases List.length_eq_one.mp hlen with ⟨z, hz⟩
      rw [hz, basic_join_single, ← hz, List.take_append_drop]

theorem split_char_bounded_core (s : Str) (c : Char) (maxF : Nat)
    (hm : 0 < maxF) (hs : s ≠ []) :
    (split_char s c maxF =
      if (fieldsChar s c).length ≤ maxF then fieldsChar s c
      else
        (fieldsChar s c).take (maxF - 1) ++
          [basic_join [c] [c] ((fieldsChar s c).drop (maxF - 1))]) ∧
    (split_char s c maxF).length ≤ maxF ∧
    split_char s c 1 = [s] := by
  have hs0 : s.length ≠ 0 := by simpa [List.length_eq_zero] using hs
  have hn1 : 1 ≤ (fieldsChar s c).length := by
    rcases List.exists_cons_of_ne_nil (fieldsChar_ne_nil s c) with ⟨y, ys, hys⟩
    simp [hys]
  have hone : split_char s c 1 = [s] := by
    rw [split_char_pos s c 1 hs0 (by omega), if_pos (by omega)]
  have hmain : split_char s c maxF =
      if (fieldsChar s c).length ≤ maxF then fieldsChar s c
      else
        (fieldsChar s c).take (maxF - 1) ++
          [basic_join [c] [c] ((fieldsChar s c).drop (maxF - 1))] := by
    by_cases hle : (fieldsChar s c).length ≤ maxF
    · rw [if_pos hle, split_char_eq_fields_of_le s c maxF hs0 (by omega) hle]
    · rw [if_neg hle, split_char_pos s c maxF hs0 (by omega)]
      by_cases h1 : maxF - 1 ≤ 0
      · rw [if_pos h1]
        have hmf : maxF = 1 := by omega
        subst hmf
        simp only [Nat.sub_self, List.take_zero, List.drop_zero, List.nil_append,
          bj_fieldsChar]
      · rw [if_neg h1, if_neg (by omega)]
  refine ⟨hmain, ?_, hone⟩
  rw [hmain]
  by_cases hle : (fieldsChar s c).length ≤ maxF
  · rw [if_pos hle]
    exact hle
  · rw [if_neg hle]
    rw [List.length_append, List.length_take]
    simp only [List.length_singleton]
    omega

theorem split_lit_bounded_core (s sep : Str) (maxF : Nat)
    (hm : 0 < maxF) (hs : s ≠ []) :
    (split_lit s sep maxF =
      if (fieldsLit s sep).length ≤ maxF then fieldsLit s sep
      else
        (fieldsLit s sep).take (maxF - 1) ++
          [basic_join sep sep ((fieldsLit s sep).drop (maxF - 1))]) ∧
    (split_lit s sep maxF).length ≤ maxF ∧
    split_lit s sep 1 = [s] := by
  have hs0 : s.length ≠ 0 := by simpa [List.length_eq_zero] using hs
  have hn1 : 1 ≤ (fieldsLit s sep).length := by
    rcases List.exists_cons_of_ne_nil (fieldsLit_ne_nil s sep) with ⟨y, ys, hys⟩
    simp [hys]
  have hone : split_lit s sep 1 = [s] := by
    rw [split_lit_pos s sep 1 hs0 (by omega), if_pos (by omega)]
  have hmain : split_lit s sep maxF =
      if (fieldsLit s sep).length ≤ maxF then fieldsLit s sep
      else
        (fieldsLit s sep).take (maxF - 1) ++
          [basic_join sep sep ((fieldsLit s sep).drop (maxF - 1))] := by
    by_cases hle : (fieldsLit s sep).length ≤ maxF
    · rw [if_pos hle, split_lit_eq_fields_of_le s sep maxF hs0 (by omega) hle]
    · rw [if_neg hle, split_lit_pos s sep maxF hs0 (by omega)]
      by_cases h1 : maxF - 1 ≤ 0
      · rw [if_pos h1]
        have hmf : maxF = 1 := by omega
        subst hmf
        simp only [Nat.sub_self, List.take_zero, List.drop_zero, List.nil_append,
          bj_fieldsLit]
      · rw [if_neg h1, if_neg (by omega)]
  refine ⟨hmain, ?_, hone⟩
  rw [hmain]
  by_cases hle : (fieldsLit s sep).length ≤ maxF
  · rw [if_pos hle]
    exact hle
  · rw [if_neg hle]
    rw [List.length_append, List.length_take]
    simp only [List.length_singleton]
    omega

/-! ## The claims -/

/-- Claim C1: in unbounded mode (`max_fields == 0`), for every source and
every character or literal separator, `split` returns exactly the full scan
field sequence with its trailing run of empty fields dropped — leading and
interior empty fields are preserved, only the trailing run of empties is
suppressed; in particular `split("a,b,,c", ",", 0) == ["a","b","","c"]` and
`split("a,b,,", ",", 0) == ["a","b"]`. -/
theorem c1_unbounded_trailing_empty_suppression :
    (∀ (s : Str) (c : Char),
        split_char s c 0 = dropTrailingEmpty (fieldsChar s c)) ∧
    (∀ (s sep : Str),
        split_lit s sep 0 = dropTrailingEmpty (fieldsLit s sep)) ∧
    split_lit "a,b,,c".toList ",".toList 0 =
      ["a".toList, "b".toList, "".toList, "c".toList] ∧
    split_lit "a,b,,".toList ",".toList 0 = ["a".toList, "b".toList] :=
  ⟨split_char_unbounded, split_lit_unbounded, by decide, by decide⟩

/-- Claim C2: in bounded mode (`max_fields > 0`), for every separator
(character or literal, the empty literal included) `split` emits the scan
fields — empty ones included, with no trailing/leading-empty suppression —
until `max_fields - 1` fields are cut, the final field being the rest of
the source verbatim (the remaining scan fields rejoined with the
separator); the output never exceeds `max_fields` fields, and
`max_fields == 1` returns the whole non-empty source as the single field;
in particular `split("a,b,c", ",", 2) == ["a","b,c"]`. -/
theorem c2_bounded_mode (s : Str) (maxF : Nat) (hm : 0 < maxF) (hs : s ≠ []) :
    (∀ c : Char,
      (split_char s c maxF =
        if (fieldsChar s c).length ≤ maxF then fieldsChar s c
        else
          (fieldsChar s c).take (maxF - 1) ++
            [basic_join [c] [c] ((fieldsChar s c).drop (maxF - 1))]) ∧
      (split_char s c maxF).length ≤ maxF ∧
      split_char s c 1 = [s]) ∧
    (∀ sep : Str,
      (split_lit s sep maxF =
        if (fieldsLit s sep).length ≤ maxF then fieldsLit s sep
        else
          (fieldsLit s sep).take (maxF - 1) ++
            [basic_join sep sep ((fieldsLit s sep).drop (maxF - 1))]) ∧
      (split_lit s sep maxF).length ≤ maxF ∧
      split_lit s sep 1 = [s]) :=
  ⟨fun c => split_char_bounded_core s c maxF hm hs,
    fun sep => split_lit_bounded_core s sep maxF hm hs⟩

/-- Claim C2 witness at `split("a,b,c", ",", 2)` (and `max_fields == 1`),
for both overloads. -/
theorem c2_bounded_mode_witness :
    0 < 2 ∧ "a,b,c".toList ≠ ([] : Str) ∧
    ((split_char "a,b,c".toList ',' 2 =
        if (fieldsChar "a,b,c".toList ',').length ≤ 2 then fieldsChar "a,b,c".toList ','
        else
          (fieldsChar "a,b,c".toList ',').take (2 - 1) ++
            [basic_join [','] [','] ((fieldsChar "a,b,c".toList ',').drop (2 - 1))]) ∧
      (split_char "a,b,c".toList ',' 2).length ≤ 2 ∧
      split_char "a,b,c".toList ',' 1 = ["a,b,c".toList]) ∧
    ((split_lit "a,b,c".toList ",".toList 2 =
        if (fieldsLit "a,b,c".toList ",".toList).length ≤ 2 then
          fieldsLit "a,b,c".toList ",".toList
        else
          (fieldsLit "a,b,c".toList ",".toList).take (2 - 1) ++
            [basic_join ",".toList ",".toList
              ((fieldsLit "a,b,c".toList ",".toList).drop (2 - 1))]) ∧
      (split_lit "a,b,c".toList ",".toList 2).length ≤ 2 ∧
      split_lit "a,b,c".toList ",".toList 1 = ["a,b,c".toList]) ∧
    split_char "a,b,c".toList ',' 2 = ["a".toList, "b,c".toList] ∧
    split_lit "a,b,c".toList ",".toList 2 = ["a".toList, "b,c".toList] :=
  ⟨by decide, by decide,
    (c2_bounded_mode "a,b,c".toList 2 (by decide) (by decide)).1 ',',
    (c2_bounded_mode "a,b,c".toList 2 (by decide) (by decide)).2 ",".toList,
    by decide, by decide⟩

/-- Claim C3: in bounded mode, when the source ends exactly on a separator
occurrence and the field cap is not hit, the output is the full scan field
sequence, whose final field is one extra empty field; unbounded mode
suppresses that trailing empty field on the same input (e.g.
`split("a,", ',', 3) == ["a",""]` while `split("a,", ',', 0) == ["a"]`).
The pattern overload shows the same pair of behaviours through the
post-loop fixup of lines 166-167, checked here on a comma pattern. -/
theorem c3_bounded_final_empty_field (s : Str) (sep : Char) (maxF : Nat)
    (hlast : s.getLast? = some sep)
    (hcap : (fieldsChar s sep).length ≤ maxF) :
    (split_char s sep maxF = fieldsChar s sep ∧
      (fieldsChar s sep).getLast? = some [] ∧
      split_char s sep 0 = dropTrailingEmpty ((fieldsChar s sep).dropLast)) ∧
    split_re commaMatcher "a,".toList 3 9 = some ["a".toList, "".toList] ∧
    split_re commaMatcher "a,".toList 0 9 = some ["a".toList] := by
  refine ⟨?_, by decide, by decide⟩
  have hs0 : s.length ≠ 0 := by
    rcases List.getLast?_eq_some_iff.mp hlast with ⟨ys, rfl⟩
    simp
  have hn1 : 1 ≤ (fieldsChar s sep).length := by
    rcases List.exists_cons_of_ne_nil (fieldsChar_ne_nil s sep) with ⟨y, ys, hys⟩
    simp [hys]
  have hgl : (fieldsChar s sep).getLast? = some [] := by
    have := fieldsCharGo_getLast_sep s sep (s.length + 1) 0 (by omega) (by omega) hlast
    simpa [fieldsChar] using this
  refine ⟨split_char_eq_fields_of_le s sep maxF hs0 (by omega) hcap, hgl, ?_⟩
  rw [split_char_unbounded]
  rcases List.getLast?_eq_some_iff.mp hgl with ⟨ys, hys⟩
  rw [hys, List.dropLast_concat, dTE_concat_empty]

/-- Claim C3 witness at `split("a,", ',', 3)` versus `split("a,", ',', 0)`. -/
theorem c3_bounded_final_empty_field_witness :
    "a,".toList.getLast? = some ',' ∧
    (fieldsChar "a,".toList ',').length ≤ 3 ∧
    ((split_char "a,".toList ',' 3 = fieldsChar "a,".toList ',' ∧
       (fieldsChar "a,".toList ',').getLast? = some [] ∧
       split_char "a,".toList ',' 0 =
         dropTrailingEmpty ((fieldsChar "a,".toList ',').dropLast)) ∧
      split_re commaMatcher "a,".toList 3 9 = some ["a".toList, "".toList] ∧
      split_re commaMatcher "a,".toList 0 9 = some ["a".toList]) ∧
    split_char "a,".toList ',' 3 = ["a".toList, "".toList] ∧
    split_char "a,".toList ',' 0 = ["a".toList] :=
  ⟨by decide, by decide,
    c3_bounded_final_empty_field "a,".toList ',' 3 (by decide) (by decide),
    by decide, by decide⟩

/-- Claim C4 (refuted, code bug): the spec says `split` is total for every
pattern separator, including patterns that can match a zero-width span at
end-of-input.  For such a pattern (modelled by `endMatcher`, e.g. the
ECMAScript pattern `$`), the zero-width adjustment `b = a + position + 1` of
lines 159/176 pushes the cut one past `str.cend()`, so `a = b + sep_len`
skips over end-of-input and the loop condition `a != str.cend()` (lines
165/188) never becomes true again: the loop never terminates — the fuelled
model is still running after every fuel. -/
theorem c4_pattern_split_diverges (s : Str) (hs : s ≠ []) :
    ∀ fuel, split_re endMatcher s 0 fuel = none := by
  intro fuel
  rw [split_re, if_neg (by simpa [List.length_eq_zero] using hs), if_pos rfl]
  cases fuel with
  | zero => rfl
  | succ f =>
      rw [splitReU]
      have hcut : regexCut endMatcher s 0 = (0, s.length + 1) := by
        simp [regexCut, endMatcher]
      rw [hcut]
      dsimp only
      rw [if_neg (by omega)]
      rw [splitReU_endMatcher_gt s f (s.length + 1 + 0) _ (by omega)]
      rfl

/-- Claim C4 witness: the concrete divergence at source `"ab"`. -/
theorem c4_pattern_split_diverges_witness :
    "ab".toList ≠ ([] : Str) ∧ split_re endMatcher "ab".toList 0 5 = none :=
  ⟨by decide, c4_pattern_split_diverges "ab".toList (by decide) 5⟩

/-- Claim C5: round trip — for a character separator the source does not
end in, and for a literal separator that is not a suffix of the source
(so no trailing empty fields are lost to suppression), joining the
unbounded split with the separator reconstructs the source. -/
theorem c5_round_trip :
    (∀ (s : Str) (c : Char), s.getLast? ≠ some c →
        basic_join [c] [c] (split_char s c 0) = s) ∧
    (∀ (s sep : Str), ¬ sep <:+ s →
        basic_join sep sep (split_lit s sep 0) = s) := by
  constructor
  · intro s c hlast
    by_cases hs : s.length = 0
    · have : s = [] := List.eq_nil_of_length_eq_zero hs
      subst this
      rfl
    · rw [split_char_unbounded]
      obtain ⟨f, hf, hfne⟩ :=
        fieldsCharGo_getLast_ne s c (s.length + 1) 0 (by omega) (by omega) hlast
      rw [show fieldsChar s c = fieldsCharGo s c (s.length + 1) 0 from rfl,
        dTE_eq_self hf hfne]
      have := bj_fieldsCharGo s c (s.length + 1) 0 (by omega) (by omega)
      simpa using this
  · intro s sep hsuf
    by_cases hs : s.length = 0
    · have : s = [] := List.eq_nil_of_length_eq_zero hs
      subst this
      rfl
    · have hsep : sep ≠ [] := by
        intro h
        exact hsuf (h ▸ List.nil_suffix)
      rw [split_lit_unbounded]
      obtain ⟨f, hf, hfne⟩ :=
        fieldsLitGo_getLast_ne s sep hsep (s.length + 1) 0 (by omega) (by omega) hsuf
      rw [show fieldsLit s sep = fieldsLitGo s sep (s.length + 1) 0 from rfl,
        dTE_eq_self hf hfne]
      have := bj_fieldsLitGo s sep (s.length + 1) 0 (by omega) (by omega)
      simpa using this

/-- Claim C5 witness: `join(split("a,b", ',', 0), ',') == "a,b"` and
`join(split("ab--cd", "--", 0), "--") == "ab--cd"`. -/
theorem c5_round_trip_witness :
    ("a,b".toList.getLast? ≠ some ',') ∧
    basic_join [','] [','] (split_char "a,b".toList ',' 0) = "a,b".toList ∧
    (¬ "--".toList <:+ "ab--cd".toList) ∧
    basic_join "--".toList "--".toList (split_lit "ab--cd".toList "--".toList 0) =
      "ab--cd".toList :=
  ⟨by decide, c5_round_trip.1 _ _ (by decide), by decide,
    c5_round_trip.2 _ _ (by decide)⟩

/-- Claim C6: `join(sequence, joiner, last_joiner)` is the empty string on
zero elements, the sole element's text on one element, and, writing the
input as `l ++ [z]` with `l` nonempty (covering both the two-element case
and three or more), the elements of `l` joined by `joiner` followed by
`last_joiner` and the final element. -/
theorem c6_join_shape (j lj : Str) :
    basic_join j lj [] = [] ∧
    (∀ x, basic_join j lj [x] = x) ∧
    (∀ (l : List Str) (z : Str), l ≠ [] →
        basic_join j lj (l ++ [z]) = basic_join j j l ++ lj ++ z) :=
  ⟨rfl, fun _ => rfl, fun _ z hl => basic_join_concat hl j lj z⟩

/-- Claim C6 witness: the `l ++ [z]` case at a concrete three-element
input. -/
theorem c6_join_shape_witness :
    (["x".toList, "y".toList] : List Str) ≠ [] ∧
    basic_join ",".toList " and ".toList (["x".toList, "y".toList] ++ ["z".toList]) =
      basic_join ",".toList ",".toList ["x".toList, "y".toList] ++ " and ".toList ++
        "z".toList :=
  ⟨by decide, (c6_join_shape ",".toList " and ".toList).2.2 _ _ (by decide)⟩

/-- Claim C7 counterexample: with the arguments exactly as written in the
spec, `join(["x","y"], ",", "and")` concatenates with no spaces: the code
yields `"xandy"`, not `"x and y"`. -/
theorem c7_join_examples_counterexample :
    basic_join ",".toList "and".toList ["x".toList, "y".toList] = "xandy".toList ∧
    ¬ basic_join ",".toList "and".toList ["x".toList, "y".toList] = "x and y".toList :=
  ⟨by decide, by decide⟩

/-- Claim C7 (amended): the worked examples hold once the last joiner is
written with its surrounding spaces, `" and "`: `join([], ",", " and ") ==
""`, `join(["x"], ",", " and ") == "x"`, `join(["x","y"], ",", " and ") ==
"x and y"`, `join(["x","y","z"], ",", " and ") == "x,y and z"`. -/
theorem c7_join_examples_amended :
    basic_join ",".toList " and ".toList [] = "".toList ∧
    basic_join ",".toList " and ".toList ["x".toList] = "x".toList ∧
    basic_join ",".toList " and ".toList ["x".toList, "y".toList] = "x and y".toList ∧
    basic_join ",".toList " and ".toList ["x".toList, "y".toList, "z".toList] =
      "x,y and z".toList :=
  ⟨by decide, by decide, by decide, by decide⟩

/-- Claim C8: splitting on the empty literal separator in unbounded mode
returns one single-character field per source character, in order, and the
scan terminates; e.g. `split("abc", "", 0) == ["a","b","c"]`. -/
theorem c8_empty_separator :
    (∀ s : Str, split_lit s [] 0 = s.map (fun ch => [ch])) ∧
    split_lit "abc".toList [] 0 = ["a".toList, "b".toList, "c".toList] := by
  refine ⟨?_, by decide⟩
  intro s
  by_cases hs : s.length = 0
  · have : s = [] := List.eq_nil_of_length_eq_zero hs
    subst this
    rfl
  · rw [split_lit, if_neg hs, if_pos rfl]
    rw [splitLitU_empty_sep s (s.length + 1) 0 (by omega) (by omega)]
    rw [List.drop_zero]

/-- Claim C9: the empty source yields an empty output sequence — no fields
at all — for every separator overload and every `max_fields`. -/
theorem c9_empty_source :
    (∀ (c : Char) (maxF : Nat), split_char [] c maxF = []) ∧
    (∀ (sep : Str) (maxF : Nat), split_lit [] sep maxF = []) ∧
    (∀ (m : Matcher) (maxF fuel : Nat), split_re m [] maxF fuel = some []) :=
  ⟨fun _ _ => rfl, fun _ _ => rfl, fun _ _ _ => rfl⟩

/-- Claim C10: the character-separator overload and the literal-separator
overload agree on every source and every `max_fields` when the literal is
the corresponding one-character string. -/
theorem c10_char_lit_agree (s : Str) (c : Char) (maxF : Nat) :
    split_char s c maxF = split_lit s [c] maxF := by
  rw [split_char, split_lit]
  by_cases hs : s.length = 0
  · rw [if_pos hs, if_pos hs]
  · rw [if_neg hs, if_neg hs]
    by_cases hm : maxF = 0
    · rw [if_pos hm, if_pos hm, splitCharU_eq_litU]
    · rw [if_neg hm, if_neg hm, splitCharB_eq_litB]

end SplitH
